import Mathlib

/-!
Verification of the dCGP `expression` class (src/include/dcgp/expression.hpp)
against its natural-language specification.

The C++ class is shallowly embedded: the topology parameters become a
structure `DCGP.P`, the chromosome and bound vectors become `List Nat`,
the mutating member functions become pure functions from states to
results, and the random engine is replaced by explicit draw streams
(`Nat → Nat`), with the rejection-sampling postconditions stated as
hypotheses of the theorems.  C++ exceptions are modelled by the
`MResult.threw` constructor, which carries the state of the object at
the moment of the throw (C++ only gives the basic exception guarantee);
the possible non-termination of `update_active` on chromosomes that
violate the bounds is modelled by fuel (`Option` result / `MResult.hang`).
-/

namespace DCGP

/-- Topology parameters of an expression: inputs, outputs, rows, columns,
levels-back, arity and the number of kernels in the function set
(the kernels themselves only matter for evaluation and are passed there). -/
structure P where
  n : Nat
  m : Nat
  r : Nat
  c : Nat
  l : Nat
  arity : Nat
  fsize : Nat
deriving DecidableEq, Repr

/-- The constructor sanity checks (a zero dimension, arity below 2 or an
empty function set throw at construction). -/
def Pvalid (pr : P) : Prop :=
  1 ≤ pr.n ∧ 1 ≤ pr.m ∧ 1 ≤ pr.r ∧ 1 ≤ pr.c ∧ 1 ≤ pr.l ∧ 2 ≤ pr.arity ∧ 1 ≤ pr.fsize

instance (pr : P) : Decidable (Pvalid pr) := by unfold Pvalid; infer_instance

/-- Number of genes of the internal nodes: `(arity + 1) * r * c`. -/
def nodeArea (pr : P) : Nat := (pr.arity + 1) * pr.r * pr.c

/-- Total chromosome length: `(arity + 1) * r * c + m`. -/
def clen (pr : P) : Nat := nodeArea pr + pr.m

/-- Applies a sequence of `vector[index] = value` assignments, in order. -/
def setAll (l : List Nat) (us : List (Nat × Nat)) : List Nat :=
  us.foldl (fun acc u => acc.set u.1 u.2) l

/-- First constructor loop: `m_ub[i] = f.size() - 1` for every function gene
`i = q * (arity + 1)`, `q < r * c`. -/
def fgeneUpdates (pr : P) : List (Nat × Nat) :=
  (List.range (pr.r * pr.c)).map (fun q => (q * (pr.arity + 1), pr.fsize - 1))

/-- Second constructor loop, upper bounds of the output genes:
`m_ub[i] = n + r * c - 1`. -/
def outUbUpdates (pr : P) : List (Nat × Nat) :=
  (List.range pr.m).map (fun i => (nodeArea pr + i, pr.n + pr.r * pr.c - 1))

/-- Second constructor loop, lower bounds of the output genes, guarded by
`l <= c`: `m_lb[i] = n + r * (c - l)`. -/
def outLbUpdates (pr : P) : List (Nat × Nat) :=
  if pr.l ≤ pr.c then
    (List.range pr.m).map (fun i => (nodeArea pr + i, pr.n + pr.r * (pr.c - pr.l)))
  else []

/-- Third constructor loop, upper bounds of the connection genes:
`m_ub[((i*r)+j)*(arity+1)+k+1] = n + i*r - 1`. -/
def connUbUpdates (pr : P) : List (Nat × Nat) :=
  (List.range pr.c).flatMap (fun i =>
    (List.range pr.r).flatMap (fun j =>
      (List.range pr.arity).map (fun k =>
        (((i * pr.r) + j) * (pr.arity + 1) + k + 1, pr.n + i * pr.r - 1))))

/-- Third constructor loop, lower bounds of the connection genes, guarded by
`i >= l`: `m_lb[((i*r)+j)*(arity+1)+k+1] = n + r * (i - l)`. -/
def connLbUpdates (pr : P) : List (Nat × Nat) :=
  (List.range pr.c).flatMap (fun i =>
    if pr.l ≤ i then
      (List.range pr.r).flatMap (fun j =>
        (List.range pr.arity).map (fun k =>
          (((i * pr.r) + j) * (pr.arity + 1) + k + 1, pr.n + pr.r * (i - pr.l))))
    else [])

/-- The upper-bound vector `m_ub` as built by the constructor: a zero vector
of length `(arity+1)*r*c + m` written by the three bound loops. -/
def ubL (pr : P) : List Nat :=
  setAll (List.replicate (clen pr) 0) (fgeneUpdates pr ++ outUbUpdates pr ++ connUbUpdates pr)

/-- The lower-bound vector `m_lb` as built by the constructor. -/
def lbL (pr : P) : List Nat :=
  setAll (List.replicate (clen pr) 0) (outLbUpdates pr ++ connLbUpdates pr)

/-- The initial random chromosome: a zero vector of length `clen` whose
entry `i` is overwritten with the `i`-th draw of the engine. -/
def initChrom (pr : P) (draw : Nat → Nat) : List Nat :=
  setAll (List.replicate (clen pr) 0) ((List.range (clen pr)).map (fun i => (i, draw i)))

/-- `expression::is_valid`: the chromosome has the length of the bound
vectors and every gene lies within its bounds. -/
def is_valid (pr : P) (x : List Nat) : Bool :=
  if x.length ≠ (lbL pr).length then false
  else (List.range x.length).all (fun i =>
    !((ubL pr).getD i 0 < x.getD i 0 || x.getD i 0 < (lbL pr).getD i 0))

/-- `std::sort` followed by `std::unique`/`erase`: the sorted,
duplicate-free version of a list. -/
def sortDedup (l : List Nat) : List Nat :=
  (List.insertionSort (fun a b => a ≤ b) l).dedup

/-- The `arity` node ids referenced by the connection genes of internal
node `node`: `m_x[(node - n) * (arity + 1) + j]` for `j = 1 .. arity`. -/
def preds (pr : P) (x : List Nat) (node : Nat) : List Nat :=
  (List.range pr.arity).map (fun j => x.getD ((node - pr.n) * (pr.arity + 1) + j + 1) 0)

/-- The `m` node ids referenced by the output genes:
`m_x[(arity + 1) * r * c + i]` for `i < m`. -/
def outTargets (pr : P) (x : List Nat) : List Nat :=
  (List.range pr.m).map (fun i => x.getD ((pr.arity + 1) * pr.r * pr.c + i) 0)

/-- One loop iteration's additions to `m_active_nodes`: the whole frontier
(`insert` at the top of the body) plus the input nodes of the frontier a
second time (the `else` branch). -/
def stepAcc (pr : P) (current acc : List Nat) : List Nat :=
  acc ++ current ++ current.filter (fun id => id < pr.n)

/-- One loop iteration's next frontier: the connection targets of the
internal frontier nodes, sorted and deduplicated. -/
def stepNext (pr : P) (x : List Nat) (current : List Nat) : List Nat :=
  sortDedup ((current.filter (fun id => pr.n ≤ id)).flatMap (preds pr x))

/-- The do-while loop of `expression::update_active`, with explicit fuel.
Each call is one execution of the loop body, and the loop repeats while
the next frontier is nonempty. -/
def bfs (pr : P) (x : List Nat) : Nat → List Nat → List Nat → Option (List Nat)
  | 0, _, _ => none
  | fuel + 1, current, acc =>
    if (stepNext pr x current).isEmpty then some (stepAcc pr current acc)
    else bfs pr x fuel (stepNext pr x current) (stepAcc pr current acc)

/-- The second half of `expression::update_active`: for every active node
`>= n`, in order, the `arity + 1` genes of its block, then always the `m`
output gene indices. -/
def activeGenesOf (pr : P) (an : List Nat) : List Nat :=
  (an.filter (fun a => pr.n ≤ a)).flatMap
      (fun a => (List.range (pr.arity + 1)).map (fun j => (a - pr.n) * (pr.arity + 1) + j))
    ++ (List.range pr.m).map (fun i => pr.r * pr.c * (pr.arity + 1) + i)

/-- `expression::update_active`: runs the reachability loop seeded with the
output targets (fuel `n + r*c + 1`, sufficient for every chromosome that
satisfies the bounds), sorts and deduplicates the accumulated nodes and
derives the active genes.  `none` models non-termination of the C++ loop,
which is possible only for chromosomes violating the bounds. -/
def update_active (pr : P) (x : List Nat) : Option (List Nat × List Nat) :=
  (bfs pr x (pr.n + pr.r * pr.c + 1) (outTargets pr x) []).map
    (fun acc => let an := sortDedup acc; (an, activeGenesOf pr an))

/-- The state of an `expression` object: topology, chromosome, active nodes
and active genes (the bound vectors are immutable and recovered from `pr`
by `lbL`/`ubL`). -/
structure Exprn where
  pr : P
  x : List Nat
  an : List Nat
  ag : List Nat
deriving DecidableEq, Repr

/-- Consistency: the stored active sets are the ones `update_active`
computes from the stored chromosome (every externally observable state of
the C++ object satisfies this). -/
def Consistent (s : Exprn) : Prop :=
  update_active s.pr s.x = some (s.an, s.ag)

instance (s : Exprn) : Decidable (Consistent s) := by unfold Consistent; infer_instance

/-- Result of a call to a mutating member function: normal return, thrown
exception (carrying the state of the object at the throw), or
non-termination. -/
inductive MResult where
  | ok (s : Exprn)
  | threw (s : Exprn)
  | hang
deriving DecidableEq, Repr

/-- Chromosome of the state carried by a result (`[]` for `hang`). -/
def resX : MResult → List Nat
  | .ok s => s.x
  | .threw s => s.x
  | .hang => []

/-- Active nodes of the state carried by a result (`[]` for `hang`). -/
def resAn : MResult → List Nat
  | .ok s => s.an
  | .threw s => s.an
  | .hang => []

/-- Active genes of the state carried by a result (`[]` for `hang`). -/
def resAg : MResult → List Nat
  | .ok s => s.ag
  | .threw s => s.ag
  | .hang => []

/-- Whether the call returned normally. -/
def isOk : MResult → Bool
  | .ok _ => true
  | _ => false

/-- Whether the call threw. -/
def isThrew : MResult → Bool
  | .threw _ => true
  | _ => false

/-- `expression::set`: validate, then replace the chromosome and recompute
the active sets; an invalid chromosome throws before any change. -/
def setChrom (s : Exprn) (y : List Nat) : MResult :=
  if is_valid s.pr y then
    match update_active s.pr y with
    | some (an, ag) => .ok { s with x := y, an := an, ag := ag }
    | none => .hang
  else .threw s

/-- `expression::mutate(unsigned idx)`: throw if `idx` is out of range;
if `lb[idx] < ub[idx]` overwrite gene `idx` with the accepted draw `v`
(the rejection loop guarantees `lb[idx] <= v <= ub[idx]` and
`v ≠ x[idx]`; those facts are hypotheses of the theorems) and recompute
the active sets; otherwise do nothing. -/
def mutate1 (s : Exprn) (idx v : Nat) : MResult :=
  if s.x.length ≤ idx then .threw s
  else if (lbL s.pr).getD idx 0 < (ubL s.pr).getD idx 0 then
    match update_active s.pr (s.x.set idx v) with
    | some (an, ag) => .ok { s with x := s.x.set idx v, an := an, ag := ag }
    | none => .hang
  else .ok s

/-- The loop of `expression::mutate(std::vector<unsigned>)`: walks the
index list mutating genes in place, throws at the first out-of-range
index (keeping the changes already made), and reports whether any gene
changed.  `draw t` is the `t`-th accepted value of the rejection
sampler. -/
def mutateMultiAux (pr : P) (draw : Nat → Nat) :
    List Nat → List Nat → Bool → Nat → Except (List Nat) (List Nat × Bool)
  | [], x, flag, _ => .ok (x, flag)
  | idx :: rest, x, flag, t =>
    if x.length ≤ idx then .error x
    else if (lbL pr).getD idx 0 < (ubL pr).getD idx 0 then
      mutateMultiAux pr draw rest (x.set idx (draw t)) true (t + 1)
    else
      mutateMultiAux pr draw rest x flag t

/-- `expression::mutate(std::vector<unsigned>)`: mutate every listed gene,
then recompute the active sets once, and only if some gene changed. -/
def mutateMulti (s : Exprn) (idxs : List Nat) (draw : Nat → Nat) : MResult :=
  match mutateMultiAux s.pr draw idxs s.x false 0 with
  | .error x2 => .threw { s with x := x2 }
  | .ok (x2, flag) =>
    if flag then
      match update_active s.pr x2 with
      | some (an, ag) => .ok { s with x := x2, an := an, ag := ag }
      | none => .hang
    else .ok { s with x := x2 }

/-- The loop of `expression::mutate_active(unsigned N)`: at step `t` it
draws a position `pd t` into the current `m_active_genes`, resolves it to
the gene index stored there and calls the single-gene `mutate` (which
recomputes the active sets before the next iteration). -/
def mutate_activeGo (pd vd : Nat → Nat) : Exprn → Nat → Nat → MResult
  | s, _, 0 => .ok s
  | s, t, nLeft + 1 =>
    let idx := s.ag.getD (pd t) 0
    match mutate1 s idx (vd t) with
    | .ok s2 => mutate_activeGo pd vd s2 (t + 1) nLeft
    | r => r

/-- `expression::mutate_active(N)`. -/
def mutate_activeN (s : Exprn) (nGenes : Nat) (pd vd : Nat → Nat) : MResult :=
  mutate_activeGo pd vd s 0 nGenes

/-- `expression::mutate_active_fgene`: if there are more active genes than
outputs, draw a position `p` in `[0, size - 1 - m]`, truncate the gene
index found there to the start of its node block and mutate it. -/
def mutate_active_fgene (s : Exprn) (p v : Nat) : MResult :=
  if s.pr.m < s.ag.length then
    mutate1 s (s.ag.getD p 0 - s.ag.getD p 0 % (s.pr.arity + 1)) v
  else .ok s

/-- `expression::mutate_active_cgene`: like `mutate_active_fgene` but the
mutated gene is connection gene `k` of the block, `k` drawn in
`[1, arity]`. -/
def mutate_active_cgene (s : Exprn) (p k v : Nat) : MResult :=
  if s.pr.m < s.ag.length then
    mutate1 s (s.ag.getD p 0 - s.ag.getD p 0 % (s.pr.arity + 1) + k) v
  else .ok s

/-- The node-evaluation loop of `expression::operator()`: walks the active
nodes in list order keeping the association `node id → value` (the
`std::map` of the C++ code; a read of an absent key yields the
default-constructed value `dflt`).  Input nodes read the input vector;
internal nodes apply the kernel selected by their function gene to the
values of their connection targets. -/
def evalNodes {T : Type} (pr : P) (dflt : T) (ks : List (List T → T)) (x : List Nat)
    (input : List T) : List Nat → List (Nat × T) → List (Nat × T)
  | [], node => node
  | i :: rest, node =>
    if i < pr.n then
      evalNodes pr dflt ks x input rest ((i, input.getD i dflt) :: node)
    else
      let idx := (i - pr.n) * (pr.arity + 1)
      let fin := (List.range pr.arity).map
        (fun j => (node.lookup (x.getD (idx + j + 1) 0)).getD dflt)
      evalNodes pr dflt ks x input rest
        ((i, (ks.getD (x.getD idx 0) (fun _ => dflt)) fin) :: node)

/-- `expression::operator()`: reject an input vector whose length is not
`n`, evaluate the active nodes, then read the `m` outputs through the
output genes `m_x[(r*c)*(arity+1) + i]`. -/
def evalExpr {T : Type} (pr : P) (dflt : T) (ks : List (List T → T)) (x an : List Nat)
    (input : List T) : Option (List T) :=
  if input.length ≠ pr.n then none
  else
    let node := evalNodes pr dflt ks x input an []
    some ((List.range pr.m).map
      (fun i => (node.lookup (x.getD (pr.r * pr.c * (pr.arity + 1) + i) 0)).getD dflt))

/-- Backward reachability from the output targets through the connection
genes of internal (`>= n`) nodes: the specification of the active-node
set. -/
inductive Reach (pr : P) (x : List Nat) : Nat → Prop where
  | out : ∀ a, a ∈ outTargets pr x → Reach pr x a
  | step : ∀ a p, Reach pr x a → pr.n ≤ a → p ∈ preds pr x a → Reach pr x p

/-! Concrete instances used by the scenarios of the specification and as
witnesses. -/

/-- Topology `n=2, m=1, r=1, c=1, l=1, arity=2`, one kernel. -/
def prA : P := { n := 2, m := 1, r := 1, c := 1, l := 1, arity := 2, fsize := 1 }

/-- Chromosome `[0, 0, 1, 2]`: node 2 = f0(node 0, node 1), output = node 2. -/
def xA : List Nat := [0, 0, 1, 2]

/-- The consistent state holding `xA`. -/
def sA : Exprn := { pr := prA, x := xA, an := [0, 1, 2], ag := [0, 1, 2, 3] }

/-- Chromosome `[0, 0, 0, 0]`: the output points directly at input 0. -/
def xB : List Nat := [0, 0, 0, 0]

/-- The state holding `xB` with its recomputed active sets. -/
def sB : Exprn := { pr := prA, x := xB, an := [0], ag := [3] }

/-- Topology `n=2, m=1, r=1, c=2, l=2, arity=2`, one kernel. -/
def prC : P := { n := 2, m := 1, r := 1, c := 2, l := 2, arity := 2, fsize := 1 }

/-- Chromosome for `prC`: output reads node 2, node 2 reads the inputs,
node 3 is inactive. -/
def xC : List Nat := [0, 0, 1, 0, 0, 1, 2]

/-- The consistent state holding `xC`. -/
def sC : Exprn := { pr := prC, x := xC, an := [0, 1, 2], ag := [0, 1, 2, 6] }

/-- Integer addition kernel (the basis function "add" of the concrete
scenario, instantiated at `T = Int` so that `2 + 3 = 5` is exact). -/
def addK : List Int → Int := fun v => v.getD 0 0 + v.getD 1 0

/-- Position draws for a concrete `mutate_active(2)` run on `sC`: first the
output gene (position 3), then position 1 of the recomputed list. -/
def pdC : Nat → Nat := fun t => [3, 1].getD t 0

/-- Value draws for the same run: the output gene moves to node 3, then the
hit gene gets value 2. -/
def vdC : Nat → Nat := fun t => [3, 2].getD t 0

/-! Lemmas about `setAll`, the elementwise-assignment loops of the
constructor. -/

theorem setAll_nil (l : List Nat) : setAll l [] = l := rfl

theorem setAll_cons (l : List Nat) (u : Nat × Nat) (rest : List (Nat × Nat)) :
    setAll l (u :: rest) = setAll (l.set u.1 u.2) rest := rfl

theorem setAll_append (l : List Nat) (us vs : List (Nat × Nat)) :
    setAll l (us ++ vs) = setAll (setAll l us) vs := by
  simp [setAll, List.foldl_append]

theorem setAll_length (us : List (Nat × Nat)) (l : List Nat) :
    (setAll l us).length = l.length := by
  induction us generalizing l with
  | nil => rfl
  | cons u rest ih =>
    rw [setAll_cons, ih]
    exact List.length_set l u.1 u.2

theorem setAll_getD_nmem (us : List (Nat × Nat)) (l : List Nat) (p d : Nat)
    (h : ∀ q ∈ us, q.1 ≠ p) : (setAll l us).getD p d = l.getD p d := by
  induction us generalizing l with
  | nil => rfl
  | cons u rest ih =>
    rw [setAll_cons, ih _ (fun q hq => h q (List.mem_cons_of_mem _ hq))]
    rw [List.getD_eq_getElem?_getD, List.getD_eq_getElem?_getD,
      List.getElem?_set_ne (h u (List.mem_cons_self u rest))]

theorem setAll_getD_uniq (us : List (Nat × Nat)) (l : List Nat) (p v d : Nat)
    (hp : p < l.length) (hmem : (p, v) ∈ us)
    (hu : ∀ q ∈ us, q.1 = p → q.2 = v) : (setAll l us).getD p d = v := by
  induction us generalizing l with
  | nil => cases hmem
  | cons u rest ih =>
    rw [setAll_cons]
    by_cases hr : (p, v) ∈ rest
    · exact ih _ (by rw [List.length_set]; exact hp) hr
        (fun q hq => hu q (List.mem_cons_of_mem _ hq))
    · have hhead : u = (p, v) := by
        rcases List.mem_cons.mp hmem with h1 | h1
        · exact h1.symm
        · exact absurd h1 hr
      subst hhead
      have hnr : ∀ q ∈ rest, q.1 ≠ p := by
        intro q hq hqp
        have hv := hu q (List.mem_cons_of_mem _ hq) hqp
        have : q = (p, v) := by
          rcases q with ⟨q1, q2⟩
          simp only at hqp hv
          rw [hqp, hv]
        exact hr (this ▸ hq)
      rw [setAll_getD_nmem rest _ _ _ hnr, List.getD_eq_getElem?_getD,
        List.getElem?_set_self hp]
      rfl

theorem getD_replicate_zero (nn p : Nat) : (List.replicate nn 0).getD p 0 = 0 := by
  rw [List.getD_eq_getElem?_getD, List.getElem?_replicate]
  by_cases h : p < nn <;> simp [h]

/-! Index arithmetic for the three gene classes: function-selector genes
`q * (arity + 1)`, connection genes `((i*r)+j)*(arity+1)+k+1` and output
genes `nodeArea + i`. -/

theorem conn_idx_lt_nodeArea {pr : P} {i j k : Nat} (hi : i < pr.c) (hj : j < pr.r)
    (hk : k < pr.arity) : ((i * pr.r) + j) * (pr.arity + 1) + k + 1 < nodeArea pr := by
  have hQ : i * pr.r + j + 1 ≤ pr.r * pr.c := by
    calc i * pr.r + j + 1 ≤ i * pr.r + pr.r := by omega
    _ = (i + 1) * pr.r := by ring
    _ ≤ pr.c * pr.r := Nat.mul_le_mul_right _ (by omega)
    _ = pr.r * pr.c := Nat.mul_comm _ _
  calc ((i * pr.r) + j) * (pr.arity + 1) + k + 1
      < ((i * pr.r) + j + 1) * (pr.arity + 1) := by
        have : ((i * pr.r) + j + 1) * (pr.arity + 1)
            = ((i * pr.r) + j) * (pr.arity + 1) + (pr.arity + 1) := by ring
        omega
    _ ≤ (pr.r * pr.c) * (pr.arity + 1) := Nat.mul_le_mul_right _ hQ
    _ = (pr.arity + 1) * pr.r * pr.c := by ring
    _ = nodeArea pr := rfl

theorem conn_idx_mod {pr : P} {i j k : Nat} (hk : k < pr.arity) :
    (((i * pr.r) + j) * (pr.arity + 1) + k + 1) % (pr.arity + 1) = k + 1 := by
  have h1 : ((i * pr.r) + j) * (pr.arity + 1) + k + 1
      = (pr.arity + 1) * ((i * pr.r) + j) + (k + 1) := by ring
  rw [h1, Nat.mul_add_mod]
  exact Nat.mod_eq_of_lt (by omega)

theorem conn_idx_div {pr : P} {i j k : Nat} (hk : k < pr.arity) :
    (((i * pr.r) + j) * (pr.arity + 1) + k + 1) / (pr.arity + 1) = (i * pr.r) + j := by
  have h1 : ((i * pr.r) + j) * (pr.arity + 1) + k + 1
      = (pr.arity + 1) * ((i * pr.r) + j) + (k + 1) := by ring
  rw [h1, Nat.mul_add_div (by omega)]
  rw [Nat.div_eq_of_lt (by omega)]
  exact Nat.add_zero _

theorem conn_idx_div_div {pr : P} {i j k : Nat} (hj : j < pr.r) (hk : k < pr.arity) :
    (((i * pr.r) + j) * (pr.arity + 1) + k + 1) / (pr.arity + 1) / pr.r = i := by
  rw [conn_idx_div hk]
  have h1 : i * pr.r + j = pr.r * i + j := by ring
  rw [h1, Nat.mul_add_div (by omega), Nat.div_eq_of_lt hj]
  exact Nat.add_zero _

theorem fgene_idx_mod {pr : P} (q : Nat) : (q * (pr.arity + 1)) % (pr.arity + 1) = 0 :=
  Nat.mul_mod_left q (pr.arity + 1)

theorem fgene_idx_lt_nodeArea {pr : P} {q : Nat} (hq : q < pr.r * pr.c) :
    q * (pr.arity + 1) < nodeArea pr := by
  calc q * (pr.arity + 1) < (q + 1) * (pr.arity + 1) := by
        have : (q + 1) * (pr.arity + 1) = q * (pr.arity + 1) + (pr.arity + 1) := by ring
        omega
    _ ≤ (pr.r * pr.c) * (pr.arity + 1) := Nat.mul_le_mul_right _ (by omega)
    _ = (pr.arity + 1) * pr.r * pr.c := by ring
    _ = nodeArea pr := rfl

/-! What an element of each update list looks like. -/

theorem fgeneUpdates_hit {pr : P} {p w : Nat} (h : (p, w) ∈ fgeneUpdates pr) :
    p < nodeArea pr ∧ p % (pr.arity + 1) = 0 ∧ w = pr.fsize - 1 := by
  simp only [fgeneUpdates, List.mem_map, List.mem_range] at h
  obtain ⟨q, hq, heq⟩ := h
  obtain ⟨hp, hw⟩ := Prod.mk.injEq .. ▸ heq
  subst hp; subst hw
  exact ⟨fgene_idx_lt_nodeArea hq, fgene_idx_mod q, rfl⟩

theorem outUbUpdates_hit {pr : P} {p w : Nat} (h : (p, w) ∈ outUbUpdates pr) :
    nodeArea pr ≤ p ∧ p < clen pr ∧ w = pr.n + pr.r * pr.c - 1 := by
  simp only [outUbUpdates, List.mem_map, List.mem_range] at h
  obtain ⟨i, hi, heq⟩ := h
  obtain ⟨hp, hw⟩ := Prod.mk.injEq .. ▸ heq
  subst hp; subst hw
  exact ⟨Nat.le_add_right _ _, by unfold clen; omega, rfl⟩

theorem outLbUpdates_hit {pr : P} {p w : Nat} (h : (p, w) ∈ outLbUpdates pr) :
    nodeArea pr ≤ p ∧ p < clen pr ∧ pr.l ≤ pr.c ∧ w = pr.n + pr.r * (pr.c - pr.l) := by
  simp only [outLbUpdates] at h
  by_cases hlc : pr.l ≤ pr.c
  · rw [if_pos hlc] at h
    simp only [List.mem_map, List.mem_range] at h
    obtain ⟨i, hi, heq⟩ := h
    obtain ⟨hp, hw⟩ := Prod.mk.injEq .. ▸ heq
    subst hp; subst hw
    exact ⟨Nat.le_add_right _ _, by unfold clen; omega, hlc, rfl⟩
  · rw [if_neg hlc] at h
    cases h

theorem connUbUpdates_hit {pr : P} {p w : Nat} (h : (p, w) ∈ connUbUpdates pr) :
    p < nodeArea pr ∧ p % (pr.arity + 1) ≠ 0
      ∧ w = pr.n + (p / (pr.arity + 1) / pr.r) * pr.r - 1 := by
  simp only [connUbUpdates, List.mem_flatMap, List.mem_map, List.mem_range] at h
  obtain ⟨i, hi, j, hj, k, hk, heq⟩ := h
  obtain ⟨hp, hw⟩ := Prod.mk.injEq .. ▸ heq
  subst hp; subst hw
  refine ⟨conn_idx_lt_nodeArea hi hj hk, ?_, ?_⟩
  · rw [conn_idx_mod hk]; omega
  · rw [conn_idx_div_div hj hk]

theorem connLbUpdates_hit {pr : P} {p w : Nat} (h : (p, w) ∈ connLbUpdates pr) :
    p < nodeArea pr ∧ p % (pr.arity + 1) ≠ 0 ∧ pr.l ≤ p / (pr.arity + 1) / pr.r
      ∧ w = pr.n + pr.r * (p / (pr.arity + 1) / pr.r - pr.l) := by
  simp only [connLbUpdates, List.mem_flatMap, List.mem_range] at h
  obtain ⟨i, hi, hin⟩ := h
  by_cases hli : pr.l ≤ i
  · rw [if_pos hli] at hin
    simp only [List.mem_flatMap, List.mem_map, List.mem_range] at hin
    obtain ⟨j, hj, k, hk, heq⟩ := hin
    obtain ⟨hp, hw⟩ := Prod.mk.injEq .. ▸ heq
    subst hp; subst hw
    refine ⟨conn_idx_lt_nodeArea hi hj hk, ?_, ?_, ?_⟩
    · rw [conn_idx_mod hk]; omega
    · rw [conn_idx_div_div hj hk]; exact hli
    · rw [conn_idx_div_div hj hk]
  · rw [if_neg hli] at hin
    cases hin

/-! Lengths and pointwise closed forms of the bound vectors. -/

theorem ubL_length (pr : P) : (ubL pr).length = clen pr := by
  rw [ubL, setAll_length, List.length_replicate]

theorem lbL_length (pr : P) : (lbL pr).length = clen pr := by
  rw [lbL, setAll_length, List.length_replicate]

theorem initChrom_length (pr : P) (draw : Nat → Nat) :
    (initChrom pr draw).length = clen pr := by
  rw [initChrom, setAll_length, List.length_replicate]

theorem ubL_fgene {pr : P} {q : Nat} (hq : q < pr.r * pr.c) :
    (ubL pr).getD (q * (pr.arity + 1)) 0 = pr.fsize - 1 := by
  unfold ubL
  apply setAll_getD_uniq
  · rw [List.length_replicate]
    exact lt_of_lt_of_le (fgene_idx_lt_nodeArea hq) (Nat.le_add_right _ _)
  · refine List.mem_append.mpr (Or.inl (List.mem_append.mpr (Or.inl ?_)))
    simp only [fgeneUpdates, List.mem_map, List.mem_range]
    exact ⟨q, hq, rfl⟩
  · rintro ⟨p', w⟩ hq' hp'
    simp only at hp'
    subst hp'
    rcases List.mem_append.mp hq' with h | h
    · rcases List.mem_append.mp h with h | h
      · exact (fgeneUpdates_hit h).2.2
      · exact absurd (outUbUpdates_hit h).1
          (Nat.not_le.mpr (fgene_idx_lt_nodeArea hq))
    · exact absurd (fgene_idx_mod q) (connUbUpdates_hit h).2.1

theorem ubL_conn {pr : P} {i j k : Nat} (hi : i < pr.c) (hj : j < pr.r)
    (hk : k < pr.arity) :
    (ubL pr).getD (((i * pr.r) + j) * (pr.arity + 1) + k + 1) 0
      = pr.n + i * pr.r - 1 := by
  unfold ubL
  apply setAll_getD_uniq
  · rw [List.length_replicate]
    exact lt_of_lt_of_le (conn_idx_lt_nodeArea hi hj hk) (Nat.le_add_right _ _)
  · refine List.mem_append.mpr (Or.inr ?_)
    simp only [connUbUpdates, List.mem_flatMap, List.mem_map, List.mem_range]
    exact ⟨i, hi, j, hj, k, hk, rfl⟩
  · rintro ⟨p', w⟩ hq' hp'
    simp only at hp'
    subst hp'
    rcases List.mem_append.mp hq' with h | h
    · rcases List.mem_append.mp h with h | h
      · have hmod := (fgeneUpdates_hit h).2.1
        rw [conn_idx_mod hk] at hmod
        omega
      · exact absurd (outUbUpdates_hit h).1
          (Nat.not_le.mpr (conn_idx_lt_nodeArea hi hj hk))
    · have := (connUbUpdates_hit h).2.2
      rwa [conn_idx_div_div hj hk] at this

theorem ubL_out {pr : P} {i : Nat} (hi : i < pr.m) :
    (ubL pr).getD (nodeArea pr + i) 0 = pr.n + pr.r * pr.c - 1 := by
  unfold ubL
  apply setAll_getD_uniq
  · rw [List.length_replicate]; unfold clen; omega
  · refine List.mem_append.mpr (Or.inl (List.mem_append.mpr (Or.inr ?_)))
    simp only [outUbUpdates, List.mem_map, List.mem_range]
    exact ⟨i, hi, rfl⟩
  · rintro ⟨p', w⟩ hq' hp'
    simp only at hp'
    subst hp'
    rcases List.mem_append.mp hq' with h | h
    · rcases List.mem_append.mp h with h | h
      · exact absurd (fgeneUpdates_hit h).1 (by omega)
      · exact (outUbUpdates_hit h).2.2
    · exact absurd (connUbUpdates_hit h).1 (by omega)

theorem lbL_fgene {pr : P} {q : Nat} (hq : q < pr.r * pr.c) :
    (lbL pr).getD (q * (pr.arity + 1)) 0 = 0 := by
  unfold lbL
  rw [setAll_getD_nmem, getD_replicate_zero]
  rintro ⟨p', w⟩ hq' hp'
  simp only at hp'
  subst hp'
  rcases List.mem_append.mp hq' with h | h
  · exact absurd (outLbUpdates_hit h).1 (Nat.not_le.mpr (fgene_idx_lt_nodeArea hq))
  · exact absurd (fgene_idx_mod q) (connLbUpdates_hit h).2.1

theorem lbL_conn {pr : P} {i j k : Nat} (hi : i < pr.c) (hj : j < pr.r)
    (hk : k < pr.arity) :
    (lbL pr).getD (((i * pr.r) + j) * (pr.arity + 1) + k + 1) 0
      = if pr.l ≤ i then pr.n + pr.r * (i - pr.l) else 0 := by
  unfold lbL
  by_cases hli : pr.l ≤ i
  · rw [if_pos hli]
    apply setAll_getD_uniq
    · rw [List.length_replicate]
      exact lt_of_lt_of_le (conn_idx_lt_nodeArea hi hj hk) (Nat.le_add_right _ _)
    · refine List.mem_append.mpr (Or.inr ?_)
      simp only [connLbUpdates, List.mem_flatMap, List.mem_range]
      refine ⟨i, hi, ?_⟩
      rw [if_pos hli]
      simp only [List.mem_flatMap, List.mem_map, List.mem_range]
      exact ⟨j, hj, k, hk, rfl⟩
    · rintro ⟨p', w⟩ hq' hp'
      simp only at hp'
      subst hp'
      rcases List.mem_append.mp hq' with h | h
      · exact absurd (outLbUpdates_hit h).1
          (Nat.not_le.mpr (conn_idx_lt_nodeArea hi hj hk))
      · have := (connLbUpdates_hit h).2.2.2
        rwa [conn_idx_div_div hj hk] at this
  · rw [if_neg hli]
    rw [setAll_getD_nmem, getD_replicate_zero]
    rintro ⟨p', w⟩ hq' hp'
    simp only at hp'
    subst hp'
    rcases List.mem_append.mp hq' with h | h
    · exact absurd (outLbUpdates_hit h).1
        (Nat.not_le.mpr (conn_idx_lt_nodeArea hi hj hk))
    · have := (connLbUpdates_hit h).2.2.1
      rw [conn_idx_div_div hj hk] at this
      exact hli this

theorem lbL_out {pr : P} {i : Nat} (hi : i < pr.m) :
    (lbL pr).getD (nodeArea pr + i) 0
      = if pr.l ≤ pr.c then pr.n + pr.r * (pr.c - pr.l) else 0 := by
  unfold lbL
  by_cases hlc : pr.l ≤ pr.c
  · rw [if_pos hlc]
    apply setAll_getD_uniq
    · rw [List.length_replicate]; unfold clen; omega
    · refine List.mem_append.mpr (Or.inl ?_)
      simp only [outLbUpdates]
      rw [if_pos hlc]
      simp only [List.mem_map, List.mem_range]
      exact ⟨i, hi, rfl⟩
    · rintro ⟨p', w⟩ hq' hp'
      simp only at hp'
      subst hp'
      rcases List.mem_append.mp hq' with h | h
      · exact (outLbUpdates_hit h).2.2.2
      · exact absurd (connLbUpdates_hit h).1 (by omega)
  · rw [if_neg hlc]
    rw [setAll_getD_nmem, getD_replicate_zero]
    rintro ⟨p', w⟩ hq' hp'
    simp only at hp'
    subst hp'
    rcases List.mem_append.mp hq' with h | h
    · exact hlc (outLbUpdates_hit h).2.2.1
    · exact absurd (connLbUpdates_hit h).1 (by omega)

/-- Every in-range gene index is a function-selector gene, a connection
gene or an output gene. -/
theorem idx_cases {pr : P} {idx : Nat} (h : idx < clen pr) :
    (∃ q, q < pr.r * pr.c ∧ idx = q * (pr.arity + 1)) ∨
    (∃ i j k, i < pr.c ∧ j < pr.r ∧ k < pr.arity
        ∧ idx = ((i * pr.r) + j) * (pr.arity + 1) + k + 1) ∨
    (∃ i, i < pr.m ∧ idx = nodeArea pr + i) := by
  by_cases harea : nodeArea pr ≤ idx
  · refine Or.inr (Or.inr ⟨idx - nodeArea pr, ?_, by omega⟩)
    unfold clen at h
    omega
  · push_neg at harea
    have hA : 0 < pr.arity + 1 := Nat.succ_pos _
    obtain ⟨q, s, hslt, hidx⟩ :
        ∃ q s, s < pr.arity + 1 ∧ idx = q * (pr.arity + 1) + s :=
      ⟨idx / (pr.arity + 1), idx % (pr.arity + 1), Nat.mod_lt _ hA, by
        have h0 := Nat.div_add_mod idx (pr.arity + 1)
        calc idx = (pr.arity + 1) * (idx / (pr.arity + 1)) + idx % (pr.arity + 1) :=
              h0.symm
          _ = idx / (pr.arity + 1) * (pr.arity + 1) + idx % (pr.arity + 1) := by ring⟩
    have hna : nodeArea pr = (pr.arity + 1) * (pr.r * pr.c) := by
      unfold nodeArea; ring
    have hqlt : q < pr.r * pr.c := by
      by_contra hcon
      push_neg at hcon
      have h1 : (pr.arity + 1) * (pr.r * pr.c) ≤ (pr.arity + 1) * q :=
        Nat.mul_le_mul_left _ hcon
      have h2 : (pr.arity + 1) * q = q * (pr.arity + 1) := Nat.mul_comm _ _
      omega
    rcases Nat.eq_zero_or_pos s with hs0 | hspos
    · exact Or.inl ⟨q, hqlt, by omega⟩
    · have hrpos : 0 < pr.r := by
        rcases Nat.eq_zero_or_pos pr.r with h0 | h0
        · have : pr.r * pr.c = 0 := by rw [h0]; ring
          omega
        · exact h0
      obtain ⟨i, j, hjr, hq⟩ : ∃ i j, j < pr.r ∧ q = i * pr.r + j :=
        ⟨q / pr.r, q % pr.r, Nat.mod_lt _ hrpos, by
          have h0 := Nat.div_add_mod q pr.r
          calc q = pr.r * (q / pr.r) + q % pr.r := h0.symm
            _ = q / pr.r * pr.r + q % pr.r := by ring⟩
      have hic : i < pr.c := by
        by_contra hcon
        push_neg at hcon
        have h1 : pr.r * pr.c ≤ pr.r * i := Nat.mul_le_mul_left _ hcon
        have h2 : pr.r * i = i * pr.r := Nat.mul_comm _ _
        omega
      refine Or.inr (Or.inl ⟨i, j, s - 1, hic, hjr, by omega, ?_⟩)
      have h4 : ((i * pr.r) + j) * (pr.arity + 1) = q * (pr.arity + 1) := by rw [← hq]
      omega

/-- Bounds come in order: every gene's lower bound is at most its upper
bound. -/
theorem lb_le_ub (pr : P) (hP : Pvalid pr) {idx : Nat} (h : idx < clen pr) :
    (lbL pr).getD idx 0 ≤ (ubL pr).getD idx 0 := by
  obtain ⟨hn, hm, hr, hc, hl, har, hf⟩ := hP
  rcases idx_cases h with ⟨q, hq, rfl⟩ | ⟨i, j, k, hi, hj, hk, rfl⟩ | ⟨i, hi, rfl⟩
  · rw [lbL_fgene hq, ubL_fgene hq]
    exact Nat.zero_le _
  · rw [lbL_conn hi hj hk, ubL_conn hi hj hk]
    by_cases hli : pr.l ≤ i
    · rw [if_pos hli]
      have e1 : pr.r * (i - pr.l) + pr.r * pr.l = pr.r * i := by
        rw [← Nat.mul_add]
        congr 1
        omega
      have e2 : pr.r * i = i * pr.r := Nat.mul_comm _ _
      have e3 : 1 ≤ pr.r * pr.l := Nat.one_le_iff_ne_zero.mpr (by positivity)
      omega
    · rw [if_neg hli]
      exact Nat.zero_le _
  · rw [lbL_out hi, ubL_out hi]
    by_cases hlc : pr.l ≤ pr.c
    · rw [if_pos hlc]
      have e1 : pr.r * (pr.c - pr.l) + pr.r * pr.l = pr.r * pr.c := by
        rw [← Nat.mul_add]
        congr 1
        omega
      have e3 : 1 ≤ pr.r * pr.l := Nat.one_le_iff_ne_zero.mpr (by positivity)
      omega
    · rw [if_neg hlc]
      exact Nat.zero_le _

/-- `is_valid` holds exactly when the chromosome has the right length and
every gene lies within its bounds. -/
theorem is_valid_iff (pr : P) (x : List Nat) :
    is_valid pr x = true ↔
      x.length = clen pr ∧ ∀ i < clen pr,
        (lbL pr).getD i 0 ≤ x.getD i 0 ∧ x.getD i 0 ≤ (ubL pr).getD i 0 := by
  unfold is_valid
  by_cases hlen : x.length = (lbL pr).length
  · rw [if_neg (by simp [hlen])]
    have hlen2 : x.length = clen pr := hlen.trans (lbL_length pr)
    simp only [List.all_eq_true, List.mem_range, Bool.not_eq_true', Bool.or_eq_false_iff,
      decide_eq_false_iff_not, Nat.not_lt]
    constructor
    · intro hb
      refine ⟨hlen2, fun i hi => ?_⟩
      obtain ⟨h1, h2⟩ := hb i (by omega)
      exact ⟨h2, h1⟩
    · rintro ⟨-, hb⟩
      intro i hi
      obtain ⟨h1, h2⟩ := hb i (by omega)
      exact ⟨h2, h1⟩
  · rw [if_pos (by simpa using hlen)]
    constructor
    · intro h
      exact absurd h (by simp)
    · rintro ⟨h1, -⟩
      exact absurd (h1.trans (lbL_length pr).symm) hlen

/-! `sortDedup` = `std::sort` + `std::unique`: membership, sortedness,
duplicate-freeness. -/

theorem mem_sortDedup {a : Nat} {l : List Nat} : a ∈ sortDedup l ↔ a ∈ l := by
  unfold sortDedup
  rw [List.mem_dedup]
  exact (List.perm_insertionSort _ l).mem_iff

theorem sortDedup_sorted (l : List Nat) : List.Sorted (· < ·) (sortDedup l) := by
  unfold sortDedup
  have hs : List.Sorted (· ≤ ·) (List.insertionSort (fun a b => a ≤ b) l) :=
    List.sorted_insertionSort _ l
  have hs2 : List.Sorted (· ≤ ·) (List.insertionSort (fun a b => a ≤ b) l).dedup :=
    List.Pairwise.sublist (List.dedup_sublist _) hs
  have hn : List.Pairwise (· ≠ ·) (List.insertionSort (fun a b => a ≤ b) l).dedup :=
    List.nodup_dedup _
  exact (List.Pairwise.and hs2 hn).imp (fun h => lt_of_le_of_ne h.1 h.2)

theorem sortDedup_nodup (l : List Nat) : (sortDedup l).Nodup :=
  (sortDedup_sorted l).imp (fun h => Nat.ne_of_lt h)

/-- Splitting `Q < r * c` into a column index and a row index. -/
theorem rc_decomp {r c Q : Nat} (hQ : Q < r * c) :
    ∃ i j, i < c ∧ j < r ∧ Q = i * r + j := by
  have hr : 0 < r := by
    rcases Nat.eq_zero_or_pos r with h0 | h0
    · subst h0
      simp at hQ
    · exact h0
  refine ⟨Q / r, Q % r, ?_, Nat.mod_lt _ hr, ?_⟩
  · by_contra hcon
    push_neg at hcon
    have h1 : r * c ≤ r * (Q / r) := Nat.mul_le_mul_left _ hcon
    have h2 : r * (Q / r) ≤ Q := Nat.mul_div_le Q r
    omega
  · have h0 := Nat.div_add_mod Q r
    calc Q = r * (Q / r) + Q % r := h0.symm
      _ = Q / r * r + Q % r := by ring

/-! Bounds on connection-gene targets and output targets of a chromosome
that satisfies the bounds: they are what makes the reachability loop
terminate. -/

/-- A connection target of an internal node is a strictly smaller node id
(only earlier columns or inputs are reachable). -/
theorem pred_lt {pr : P} {x : List Nat} (hP : Pvalid pr) (hv : is_valid pr x = true)
    {a p : Nat} (ha1 : pr.n ≤ a) (ha2 : a < pr.n + pr.r * pr.c)
    (hp : p ∈ preds pr x a) : p < a := by
  obtain ⟨hn, hm, hr, hc, hl, har, hf⟩ := hP
  simp only [preds, List.mem_map, List.mem_range] at hp
  obtain ⟨j, hjar, hpj⟩ := hp
  obtain ⟨i, j', hic, hjr, hQ⟩ := rc_decomp (show a - pr.n < pr.r * pr.c by omega)
  have hidxeq : (a - pr.n) * (pr.arity + 1) + j + 1
      = ((i * pr.r) + j') * (pr.arity + 1) + j + 1 := by rw [hQ]
  have hlt : ((i * pr.r) + j') * (pr.arity + 1) + j + 1 < clen pr :=
    lt_of_lt_of_le (conn_idx_lt_nodeArea hic hjr hjar) (Nat.le_add_right _ _)
  have hub := (((is_valid_iff pr x).mp hv).2 _ hlt).2
  rw [ubL_conn hic hjr hjar] at hub
  rw [hidxeq] at hpj
  have h5 : i * pr.r ≤ a - pr.n := by omega
  omega

/-- An output target is at most `n + r*c - 1`. -/
theorem outTarget_le {pr : P} {x : List Nat} (_hP : Pvalid pr)
    (hv : is_valid pr x = true) : ∀ o ∈ outTargets pr x, o ≤ pr.n + pr.r * pr.c - 1 := by
  intro o ho
  simp only [outTargets, List.mem_map, List.mem_range] at ho
  obtain ⟨i, him, hoi⟩ := ho
  have he : (pr.arity + 1) * pr.r * pr.c = nodeArea pr := rfl
  rw [he] at hoi
  have hlt : nodeArea pr + i < clen pr := by unfold clen; omega
  have hub := (((is_valid_iff pr x).mp hv).2 _ hlt).2
  rw [ubL_out him] at hub
  omega

/-! Membership in the loop-body pieces. -/

theorem mem_stepAcc {pr : P} {current acc : List Nat} {a : Nat} :
    a ∈ stepAcc pr current acc ↔ a ∈ acc ∨ a ∈ current := by
  unfold stepAcc
  constructor
  · intro h
    rcases List.mem_append.mp h with h1 | h1
    · exact List.mem_append.mp h1
    · exact Or.inr (List.mem_filter.mp h1).1
  · intro h
    rcases h with h | h
    · exact List.mem_append.mpr (Or.inl (List.mem_append.mpr (Or.inl h)))
    · exact List.mem_append.mpr (Or.inl (List.mem_append.mpr (Or.inr h)))

theorem mem_stepNext {pr : P} {x : List Nat} {current : List Nat} {p : Nat} :
    p ∈ stepNext pr x current ↔ ∃ a ∈ current, pr.n ≤ a ∧ p ∈ preds pr x a := by
  unfold stepNext
  rw [mem_sortDedup, List.mem_flatMap]
  constructor
  · rintro ⟨a, ha, hpa⟩
    obtain ⟨h1, h2⟩ := List.mem_filter.mp ha
    exact ⟨a, h1, by simpa using h2, hpa⟩
  · rintro ⟨a, ha, hna, hpa⟩
    exact ⟨a, List.mem_filter.mpr ⟨ha, by simpa using hna⟩, hpa⟩

theorem bfs_zero (pr : P) (x current acc : List Nat) :
    bfs pr x 0 current acc = none := rfl

theorem bfs_succ (pr : P) (x : List Nat) (fuel : Nat) (current acc : List Nat) :
    bfs pr x (fuel + 1) current acc =
      if (stepNext pr x current).isEmpty then some (stepAcc pr current acc)
      else bfs pr x fuel (stepNext pr x current) (stepAcc pr current acc) := rfl

/-- The loop only adds nodes: everything in the accumulator or the frontier
ends up in the result. -/
theorem bfs_grow {pr : P} {x : List Nat} :
    ∀ fuel current acc res, bfs pr x fuel current acc = some res →
      ∀ a, a ∈ acc ∨ a ∈ current → a ∈ res := by
  intro fuel
  induction fuel with
  | zero =>
    intro current acc res h
    rw [bfs_zero] at h
    cases h
  | succ fuel ih =>
    intro current acc res h a ha
    rw [bfs_succ] at h
    by_cases hni : (stepNext pr x current).isEmpty
    · rw [if_pos hni] at h
      injection h with h
      subst h
      exact mem_stepAcc.mpr ha
    · rw [if_neg hni] at h
      exact ih _ _ _ h a (Or.inl (mem_stepAcc.mpr ha))

/-- Soundness: starting from reachable nodes, the result contains only
reachable nodes. -/
theorem bfs_sound {pr : P} {x : List Nat} :
    ∀ fuel current acc res, bfs pr x fuel current acc = some res →
      (∀ a ∈ acc, Reach pr x a) → (∀ a ∈ current, Reach pr x a) →
      ∀ a ∈ res, Reach pr x a := by
  intro fuel
  induction fuel with
  | zero =>
    intro current acc res h
    rw [bfs_zero] at h
    cases h
  | succ fuel ih =>
    intro current acc res h hacc hcur
    have hacc2 : ∀ a ∈ stepAcc pr current acc, Reach pr x a := by
      intro a ha
      rcases mem_stepAcc.mp ha with h1 | h1
      · exact hacc a h1
      · exact hcur a h1
    have hnext : ∀ p ∈ stepNext pr x current, Reach pr x p := by
      intro p hp
      obtain ⟨a, ha, hna, hpa⟩ := mem_stepNext.mp hp
      exact Reach.step a p (hcur a ha) hna hpa
    rw [bfs_succ] at h
    by_cases hni : (stepNext pr x current).isEmpty
    · rw [if_pos hni] at h
      injection h with h
      subst h
      exact hacc2
    · rw [if_neg hni] at h
      exact ih _ _ _ h hacc2 hnext

/-- Completeness invariant: if the accumulator is closed up to the frontier
and the output targets are covered, then the result is closed under
predecessors and covers the output targets. -/
theorem bfs_closed {pr : P} {x : List Nat} :
    ∀ fuel current acc res, bfs pr x fuel current acc = some res →
      (∀ a ∈ acc, pr.n ≤ a → ∀ p ∈ preds pr x a, p ∈ acc ∨ p ∈ current) →
      (∀ o ∈ outTargets pr x, o ∈ acc ∨ o ∈ current) →
      (∀ a ∈ res, pr.n ≤ a → ∀ p ∈ preds pr x a, p ∈ res)
        ∧ (∀ o ∈ outTargets pr x, o ∈ res) := by
  intro fuel
  induction fuel with
  | zero =>
    intro current acc res h
    rw [bfs_zero] at h
    cases h
  | succ fuel ih =>
    intro current acc res h hinv hout
    have hinv2 : ∀ a ∈ stepAcc pr current acc, pr.n ≤ a → ∀ p ∈ preds pr x a,
        p ∈ stepAcc pr current acc ∨ p ∈ stepNext pr x current := by
      intro a ha hna p hpa
      rcases mem_stepAcc.mp ha with h1 | h1
      · exact Or.inl (mem_stepAcc.mpr (hinv a h1 hna p hpa))
      · exact Or.inr (mem_stepNext.mpr ⟨a, h1, hna, hpa⟩)
    have hout2 : ∀ o ∈ outTargets pr x,
        o ∈ stepAcc pr current acc ∨ o ∈ stepNext pr x current :=
      fun o ho => Or.inl (mem_stepAcc.mpr (hout o ho))
    rw [bfs_succ] at h
    by_cases hni : (stepNext pr x current).isEmpty
    · rw [if_pos hni] at h
      injection h with h
      subst h
      have hempty : stepNext pr x current = [] := by
        simpa using hni
      constructor
      · intro a ha hna p hpa
        rcases hinv2 a ha hna p hpa with h2 | h2
        · exact h2
        · rw [hempty] at h2
          cases h2
      · intro o ho
        rcases hout2 o ho with h2 | h2
        · exact h2
        · rw [hempty] at h2
          cases h2
    · rw [if_neg hni] at h
      exact ih _ _ _ h hinv2 hout2

/-- Termination: with a frontier of nodes `≤ B`, all below `n + r*c`, fuel
`B + 1` suffices, because every next frontier consists of strictly
smaller node ids. -/
theorem bfs_terminates {pr : P} {x : List Nat} (hP : Pvalid pr)
    (hv : is_valid pr x = true) :
    ∀ fuel B current acc, B < fuel →
      (∀ a ∈ current, a ≤ B ∧ a < pr.n + pr.r * pr.c) →
      ∃ res, bfs pr x fuel current acc = some res := by
  intro fuel
  induction fuel with
  | zero =>
    intro B current acc hB
    omega
  | succ fuel ih =>
    intro B current acc hB hbound
    rw [bfs_succ]
    by_cases hni : (stepNext pr x current).isEmpty
    · rw [if_pos hni]
      exact ⟨_, rfl⟩
    · rw [if_neg hni]
      have hlt : ∀ p ∈ stepNext pr x current, p ≤ B - 1 ∧ p < pr.n + pr.r * pr.c := by
        intro p hp
        obtain ⟨a, ha, hna, hpa⟩ := mem_stepNext.mp hp
        obtain ⟨haB, harc⟩ := hbound a ha
        have := pred_lt hP hv hna harc hpa
        omega
      have hBpos : 1 ≤ B := by
        obtain ⟨p, hp⟩ := List.exists_mem_of_ne_nil _ (by simpa using hni)
        obtain ⟨a, ha, hna, hpa⟩ := mem_stepNext.mp hp
        obtain ⟨haB, harc⟩ := hbound a ha
        have := pred_lt hP hv hna harc hpa
        omega
      exact ih (B - 1) _ _ (by omega) hlt

/-- `update_active` terminates on every chromosome satisfying the bounds. -/
theorem update_active_total {pr : P} {x : List Nat} (hP : Pvalid pr)
    (hv : is_valid pr x = true) :
    ∃ an ag, update_active pr x = some (an, ag) := by
  have hn1 : 1 ≤ pr.n := hP.1
  obtain ⟨res, hres⟩ := bfs_terminates hP hv (pr.n + pr.r * pr.c + 1)
    (pr.n + pr.r * pr.c - 1) (outTargets pr x) [] (by omega)
    (fun a ha => by
      have := outTarget_le hP hv a ha
      omega)
  refine ⟨sortDedup res, activeGenesOf pr (sortDedup res), ?_⟩
  unfold update_active
  rw [hres]
  rfl

/-- Decomposing a successful `update_active` run. -/
theorem update_active_elim {pr : P} {x : List Nat} {an ag : List Nat}
    (h : update_active pr x = some (an, ag)) :
    ∃ res, bfs pr x (pr.n + pr.r * pr.c + 1) (outTargets pr x) [] = some res
      ∧ an = sortDedup res ∧ ag = activeGenesOf pr an := by
  unfold update_active at h
  cases hb : bfs pr x (pr.n + pr.r * pr.c + 1) (outTargets pr x) [] with
  | none =>
    rw [hb] at h
    cases h
  | some res =>
    rw [hb] at h
    simp only [Option.map_some] at h
    injection h with h
    obtain ⟨h1, h2⟩ := Prod.mk.injEq .. ▸ h
    exact ⟨res, rfl, h1.symm, by rw [← h2, ← h1]⟩

/-- The computed active-node list is sorted strictly ascending (hence
duplicate-free). -/
theorem update_active_sorted {pr : P} {x : List Nat} {an ag : List Nat}
    (h : update_active pr x = some (an, ag)) : List.Sorted (· < ·) an := by
  obtain ⟨res, -, han, -⟩ := update_active_elim h
  rw [han]
  exact sortDedup_sorted res

/-- The computed active-node list is exactly the set of nodes reachable
backward from the output targets. -/
theorem update_active_mem_reach {pr : P} {x : List Nat} {an ag : List Nat}
    (h : update_active pr x = some (an, ag)) : ∀ a, a ∈ an ↔ Reach pr x a := by
  obtain ⟨res, hres, han, -⟩ := update_active_elim h
  have hclosed := bfs_closed _ _ _ _ hres
    (fun a ha => absurd ha (List.not_mem_nil a))
    (fun o ho => Or.inr ho)
  intro a
  rw [han, mem_sortDedup]
  constructor
  · intro ha
    exact bfs_sound _ _ _ _ hres
      (fun b hb => absurd hb (List.not_mem_nil b))
      (fun b hb => Reach.out b hb) a ha
  · intro hr
    induction hr with
    | out b hb => exact hclosed.2 b hb
    | step b p hrb hnb hpb ih => exact hclosed.1 b ih hnb p hpb

/-- The result of `update_active` is closed under predecessors of internal
nodes and contains every output target. -/
theorem update_active_closed {pr : P} {x : List Nat} {an ag : List Nat}
    (h : update_active pr x = some (an, ag)) :
    (∀ a ∈ an, pr.n ≤ a → ∀ p ∈ preds pr x a, p ∈ an)
      ∧ (∀ o ∈ outTargets pr x, o ∈ an) := by
  have hmem := update_active_mem_reach h
  constructor
  · intro a ha hna p hp
    exact (hmem p).mpr (Reach.step a p ((hmem a).mp ha) hna hp)
  · intro o ho
    exact (hmem o).mpr (Reach.out o ho)

/-! Structure of the active-gene list. -/

theorem flatMap_blocks_length (pr : P) (l : List Nat) :
    (l.flatMap (fun a => (List.range (pr.arity + 1)).map
      (fun j => (a - pr.n) * (pr.arity + 1) + j))).length = l.length * (pr.arity + 1) := by
  induction l with
  | nil => simp
  | cons a t ih =>
    simp only [List.flatMap_cons, List.length_append, List.length_map,
      List.length_range, ih, List.length_cons]
    ring

theorem activeGenesOf_length (pr : P) (an : List Nat) :
    (activeGenesOf pr an).length
      = (an.filter (fun a => pr.n ≤ a)).length * (pr.arity + 1) + pr.m := by
  unfold activeGenesOf
  rw [List.length_append, List.length_map, List.length_range, flatMap_blocks_length]

/-- The final `m` entries of the active-gene list are exactly the output
gene indices `r*c*(arity+1) + i`, `i < m`. -/
theorem activeGenesOf_drop (pr : P) (an : List Nat) :
    (activeGenesOf pr an).drop ((activeGenesOf pr an).length - pr.m)
      = (List.range pr.m).map (fun i => pr.r * pr.c * (pr.arity + 1) + i) := by
  unfold activeGenesOf
  rw [List.length_append, List.length_map, List.length_range, Nat.add_sub_cancel]
  exact List.drop_left _ _

/-- Any entry of the active-gene list before the output block is one of the
`arity + 1` genes of an active internal node. -/
theorem activeGenesOf_getD {pr : P} {an : List Nat} {p : Nat}
    (hp : p < (an.filter (fun a => pr.n ≤ a)).length * (pr.arity + 1)) :
    ∃ a ∈ an, pr.n ≤ a ∧ ∃ j ≤ pr.arity,
      (activeGenesOf pr an).getD p 0 = (a - pr.n) * (pr.arity + 1) + j := by
  have hpA : p < ((an.filter (fun a => pr.n ≤ a)).flatMap
      (fun a => (List.range (pr.arity + 1)).map
        (fun j => (a - pr.n) * (pr.arity + 1) + j))).length := by
    rw [flatMap_blocks_length]
    exact hp
  unfold activeGenesOf
  rw [List.getD_append _ _ _ _ hpA, List.getD_eq_getElem _ _ hpA]
  have hmem := List.getElem_mem hpA
  rw [List.mem_flatMap] at hmem
  obtain ⟨a, hafil, hmap⟩ := hmem
  obtain ⟨ha1, ha2⟩ := List.mem_filter.mp hafil
  rw [List.mem_map] at hmap
  obtain ⟨j, hj, hjv⟩ := hmap
  rw [List.mem_range] at hj
  exact ⟨a, ha1, by simpa using ha2, j, by omega, hjv.symm⟩

/-! The evaluator's node map: its keys are exactly the processed nodes. -/

theorem evalNodes_keys {T : Type} (pr : P) (dflt : T) (ks : List (List T → T))
    (x : List Nat) (input : List T) :
    ∀ l node, (evalNodes pr dflt ks x input l node).map Prod.fst
      = l.reverse ++ node.map Prod.fst := by
  intro l
  induction l with
  | nil =>
    intro node
    simp [evalNodes]
  | cons i rest ih =>
    intro node
    simp only [evalNodes]
    by_cases h : i < pr.n
    · rw [if_pos h, ih]
      simp
    · rw [if_neg h, ih]
      simp

theorem lookup_isSome_iff {T : Type} (node : List (Nat × T)) (p : Nat) :
    (node.lookup p).isSome = true ↔ p ∈ node.map Prod.fst := by
  induction node with
  | nil => simp [List.lookup]
  | cons q t ih =>
    rcases q with ⟨q1, q2⟩
    rw [List.lookup_cons]
    by_cases h : p = q1
    · subst h
      simp
    · rw [show (p == q1) = false from by simpa using h]
      show (t.lookup p).isSome = true ↔ p ∈ ((q1, q2) :: t).map Prod.fst
      rw [ih]
      simp [h]

/-- In a strictly sorted list, any member smaller than the entry at
position `k` occurs in the first `k` entries. -/
theorem mem_take_of_lt_sorted {l : List Nat} (hs : List.Sorted (· < ·) l) {k : Nat}
    (hk : k < l.length) {p : Nat} (hp : p ∈ l) (hlt : p < l[k]) : p ∈ l.take k := by
  obtain ⟨mIdx, hm, hgm⟩ := List.mem_iff_getElem.mp hp
  have hmk : mIdx < k := by
    by_contra hcon
    push_neg at hcon
    rcases Nat.eq_or_lt_of_le hcon with he | hlt2
    · have heq : l[k] = l[mIdx] := by
        cases he
        rfl
      omega
    · have hR := List.pairwise_iff_getElem.mp hs k mIdx hk hm hlt2
      omega
  refine List.mem_iff_getElem.mpr ⟨mIdx, ?_, ?_⟩
  · rw [List.length_take]
    exact lt_min hmk hm
  · rw [List.getElem_take]
    exact hgm

/-! Elementwise update lemmas for `List.set`, and preservation of
chromosome validity under an in-bounds single-gene write. -/

theorem getD_set_ne {x : List Nat} {idx v j : Nat} (h : idx ≠ j) :
    (x.set idx v).getD j 0 = x.getD j 0 := by
  rw [List.getD_eq_getElem?_getD, List.getElem?_set_ne h, ← List.getD_eq_getElem?_getD]

theorem getD_set_self {x : List Nat} {idx v : Nat} (h : idx < x.length) :
    (x.set idx v).getD idx 0 = v := by
  rw [List.getD_eq_getElem?_getD, List.getElem?_set_self h, Option.getD_some]

theorem is_valid_set {pr : P} {x : List Nat} (hv : is_valid pr x = true) {idx v : Nat}
    (hidx : idx < x.length) (hlb : (lbL pr).getD idx 0 ≤ v)
    (hub : v ≤ (ubL pr).getD idx 0) : is_valid pr (x.set idx v) = true := by
  rw [is_valid_iff] at hv ⊢
  obtain ⟨hlen, hb⟩ := hv
  refine ⟨by rw [List.length_set]; exact hlen, ?_⟩
  intro i hi
  by_cases h : idx = i
  · subst h
    rw [getD_set_self hidx]
    exact ⟨hlb, hub⟩
  · rw [getD_set_ne h]
    exact hb i hi

/-! Case analysis of the single-gene `mutate`. -/

theorem mutate1_threw {s : Exprn} {idx : Nat} (v : Nat) (hidx : s.x.length ≤ idx) :
    mutate1 s idx v = .threw s := by
  unfold mutate1
  rw [if_pos hidx]

theorem mutate1_frozen {s : Exprn} {idx : Nat} (v : Nat) (hidx : idx < s.x.length)
    (h : ¬ (lbL s.pr).getD idx 0 < (ubL s.pr).getD idx 0) :
    mutate1 s idx v = .ok s := by
  unfold mutate1
  rw [if_neg (by omega), if_neg h]

theorem mutate1_ok_set {s : Exprn} {idx v : Nat} (hP : Pvalid s.pr)
    (hv : is_valid s.pr s.x = true) (hidx : idx < s.x.length)
    (hlb : (lbL s.pr).getD idx 0 ≤ v) (hub : v ≤ (ubL s.pr).getD idx 0)
    (hlbub : (lbL s.pr).getD idx 0 < (ubL s.pr).getD idx 0) :
    ∃ an ag, mutate1 s idx v = .ok { s with x := s.x.set idx v, an := an, ag := ag }
      ∧ update_active s.pr (s.x.set idx v) = some (an, ag) := by
  have hv2 := is_valid_set hv hidx hlb hub
  obtain ⟨an, ag, hua⟩ := update_active_total hP hv2
  refine ⟨an, ag, ?_, hua⟩
  unfold mutate1
  rw [if_neg (by omega), if_pos hlbub, hua]

/-- A normal return of `mutate` ends in a consistent state (consistent in,
consistent out; the recomputation happens inside the call). -/
theorem mutate1_ok_consistent {s s2 : Exprn} {idx v : Nat}
    (h : mutate1 s idx v = .ok s2) (hc : Consistent s) : Consistent s2 := by
  unfold mutate1 at h
  by_cases h1 : s.x.length ≤ idx
  · rw [if_pos h1] at h
    cases h
  · rw [if_neg h1] at h
    by_cases h2 : (lbL s.pr).getD idx 0 < (ubL s.pr).getD idx 0
    · rw [if_pos h2] at h
      cases hu : update_active s.pr (s.x.set idx v) with
      | none =>
        rw [hu] at h
        cases h
      | some pair =>
        rcases pair with ⟨an, ag⟩
        rw [hu] at h
        injection h with h
        subst h
        exact hu
    · rw [if_neg h2] at h
      injection h with h
      subst h
      exact hc

/-! The multi-gene `mutate` loop: behavior on a list containing an
out-of-range index. -/

theorem mutateMultiAux_throw {pr : P} {draw : Nat → Nat} :
    ∀ (idxs : List Nat) (x : List Nat) (flag : Bool) (t : Nat),
      (∃ i ∈ idxs, x.length ≤ i) →
      ∃ x2, mutateMultiAux pr draw idxs x flag t = .error x2
        ∧ x2.length = x.length
        ∧ ∀ j, j ∉ idxs.takeWhile (fun i => decide (i < x.length)) →
            x2.getD j 0 = x.getD j 0 := by
  intro idxs
  induction idxs with
  | nil =>
    rintro x flag t ⟨i, hi, -⟩
    cases hi
  | cons idx rest ih =>
    rintro x flag t hex
    by_cases h1 : x.length ≤ idx
    · refine ⟨x, ?_, rfl, fun j hj => rfl⟩
      unfold mutateMultiAux
      rw [if_pos h1]
    · push_neg at h1
      have hex2 : ∃ i ∈ rest, x.length ≤ i := by
        obtain ⟨i, hi, hil⟩ := hex
        rcases List.mem_cons.mp hi with he | hi2
        · subst he
          omega
        · exact ⟨i, hi2, hil⟩
      have htw : (idx :: rest).takeWhile (fun i => decide (i < x.length))
          = idx :: rest.takeWhile (fun i => decide (i < x.length)) := by
        rw [List.takeWhile_cons, if_pos (by simpa using h1)]
      by_cases h2 : (lbL pr).getD idx 0 < (ubL pr).getD idx 0
      · have hex3 : ∃ i ∈ rest, (x.set idx (draw t)).length ≤ i := by
          rw [List.length_set]
          exact hex2
        obtain ⟨x2, haux, hlen, hframe⟩ := ih (x.set idx (draw t)) true (t + 1) hex3
        refine ⟨x2, ?_, by rw [hlen, List.length_set], ?_⟩
        · unfold mutateMultiAux
          rw [if_neg (by omega), if_pos h2]
          exact haux
        · intro j hj
          rw [htw] at hj
          have hjne : idx ≠ j := fun he => hj (he ▸ List.mem_cons_self idx _)
          have hjr : j ∉ rest.takeWhile (fun i => decide (i < (x.set idx (draw t)).length)) := by
            simp only [List.length_set]
            exact fun hin => hj (List.mem_cons_of_mem _ hin)
          rw [hframe j hjr, getD_set_ne hjne]
      · obtain ⟨x2, haux, hlen, hframe⟩ := ih x flag t hex2
        refine ⟨x2, ?_, hlen, ?_⟩
        · unfold mutateMultiAux
          rw [if_neg (by omega), if_neg h2]
          exact haux
        · intro j hj
          rw [htw] at hj
          exact hframe j (fun hin => hj (List.mem_cons_of_mem _ hin))

/-! The `mutate_active` loop. -/

theorem mutate_activeGo_zero (pd vd : Nat → Nat) (s : Exprn) (t : Nat) :
    mutate_activeGo pd vd s t 0 = .ok s := rfl

theorem mutate_activeGo_succ (pd vd : Nat → Nat) (s : Exprn) (t nLeft : Nat) :
    mutate_activeGo pd vd s t (nLeft + 1)
      = match mutate1 s (s.ag.getD (pd t) 0) (vd t) with
        | .ok s2 => mutate_activeGo pd vd s2 (t + 1) nLeft
        | r => r := rfl

/-- Every normally returning run of the `mutate_active` loop preserves
consistency: the active sets are recomputed inside every iteration that
changes a gene, never deferred. -/
theorem mutate_activeGo_consistent (pd vd : Nat → Nat) :
    ∀ (nLeft : Nat) (s : Exprn) (t : Nat) (s2 : Exprn),
      mutate_activeGo pd vd s t nLeft = .ok s2 → Consistent s → Consistent s2 := by
  intro nLeft
  induction nLeft with
  | zero =>
    intro s t s2 h hc
    rw [mutate_activeGo_zero] at h
    injection h with h
    subst h
    exact hc
  | succ nLeft ih =>
    intro s t s2 h hc
    rw [mutate_activeGo_succ] at h
    cases hm : mutate1 s (s.ag.getD (pd t) 0) (vd t) with
    | ok s3 =>
      rw [hm] at h
      exact ih s3 (t + 1) s2 h (mutate1_ok_consistent hm hc)
    | threw s3 =>
      rw [hm] at h
      cases h
    | hang =>
      rw [hm] at h
      cases h

/-- On a chromosome satisfying the bounds, every reachable node id is below
`n + r*c`. -/
theorem reach_lt {pr : P} {x : List Nat} (hP : Pvalid pr)
    (hv : is_valid pr x = true) : ∀ a, Reach pr x a → a < pr.n + pr.r * pr.c := by
  intro a hr
  have hn1 : 1 ≤ pr.n := hP.1
  induction hr with
  | out b hb =>
    have := outTarget_le hP hv b hb
    omega
  | step b p hrb hnb hpb ih => exact lt_trans (pred_lt hP hv hnb ih hpb) ih

/-! The claims. -/

/-- C9: for every valid topology (n, m, r, c, l ≥ 1, arity ≥ 2, non-empty
function set), the constructed lb, ub and chromosome all have length
`(arity+1)*r*c + m`, `lb[i] ≤ ub[i]` holds for every index i, and the
connection-gene bounds follow the formula `ub = n + i*r - 1`,
`lb = n + r*(i-l)` if `i ≥ l` else `0`, for column i. -/
theorem c9_bounds (pr : P) (hP : Pvalid pr) :
    (lbL pr).length = (pr.arity + 1) * pr.r * pr.c + pr.m
      ∧ (ubL pr).length = (pr.arity + 1) * pr.r * pr.c + pr.m
      ∧ (∀ draw : Nat → Nat,
          (initChrom pr draw).length = (pr.arity + 1) * pr.r * pr.c + pr.m)
      ∧ (∀ i, i < clen pr → (lbL pr).getD i 0 ≤ (ubL pr).getD i 0)
      ∧ (∀ i j k, i < pr.c → j < pr.r → k < pr.arity →
          (ubL pr).getD (((i * pr.r) + j) * (pr.arity + 1) + k + 1) 0
              = pr.n + i * pr.r - 1
            ∧ (lbL pr).getD (((i * pr.r) + j) * (pr.arity + 1) + k + 1) 0
              = if pr.l ≤ i then pr.n + pr.r * (i - pr.l) else 0) :=
  ⟨lbL_length pr, ubL_length pr, fun draw => initChrom_length pr draw,
   fun _ hi => lb_le_ub pr hP hi,
   fun _ _ _ hi hj hk => ⟨ubL_conn hi hj hk, lbL_conn hi hj hk⟩⟩

/-- C9 witness: the bounds facts instantiated on the concrete topology
`prA`. -/
theorem c9_witness :
    Pvalid prA
      ∧ ((lbL prA).length = (prA.arity + 1) * prA.r * prA.c + prA.m
        ∧ (ubL prA).length = (prA.arity + 1) * prA.r * prA.c + prA.m
        ∧ (∀ draw : Nat → Nat,
            (initChrom prA draw).length = (prA.arity + 1) * prA.r * prA.c + prA.m)
        ∧ (∀ i, i < clen prA → (lbL prA).getD i 0 ≤ (ubL prA).getD i 0)
        ∧ (∀ i j k, i < prA.c → j < prA.r → k < prA.arity →
            (ubL prA).getD (((i * prA.r) + j) * (prA.arity + 1) + k + 1) 0
                = prA.n + i * prA.r - 1
              ∧ (lbL prA).getD (((i * prA.r) + j) * (prA.arity + 1) + k + 1) 0
                = if prA.l ≤ i then prA.n + prA.r * (i - prA.l) else 0)) :=
  ⟨by decide, c9_bounds prA (by decide)⟩

/-- C5: `set(x)` with a validator-accepted chromosome succeeds and a
subsequent `get()` returns exactly x; with an invalid chromosome it
reports failure and leaves the chromosome, active_nodes and active_genes
unchanged. -/
theorem c5_set_get (s : Exprn) (y : List Nat) (hP : Pvalid s.pr) :
    (is_valid s.pr y = true →
      isOk (setChrom s y) = true ∧ resX (setChrom s y) = y)
    ∧ (is_valid s.pr y = false → setChrom s y = .threw s) := by
  constructor
  · intro hv
    obtain ⟨an, ag, hua⟩ := update_active_total hP hv
    unfold setChrom
    rw [if_pos hv, hua]
    exact ⟨rfl, rfl⟩
  · intro hv
    unfold setChrom
    rw [if_neg (by simp [hv])]

/-- C5 witness: a valid and an invalid `set` on the concrete state `sA`. -/
theorem c5_witness :
    Pvalid prA
      ∧ is_valid prA [0, 1, 1, 2] = true
      ∧ (isOk (setChrom sA [0, 1, 1, 2]) = true
        ∧ resX (setChrom sA [0, 1, 1, 2]) = [0, 1, 1, 2])
      ∧ is_valid prA [0, 0, 0, 0] = false
      ∧ setChrom sA [0, 0, 0, 0] = .threw sA :=
  ⟨by decide, by decide, (c5_set_get sA [0, 1, 1, 2] (by decide)).1 (by decide),
    by decide, (c5_set_get sA [0, 0, 0, 0] (by decide)).2 (by decide)⟩

/-- C3: for every chromosome satisfying the bounds, the active-set
recomputation succeeds; the resulting active_nodes is sorted strictly
ascending (hence duplicate-free) and contains exactly the node ids
reachable backward from the output targets through the connection genes of
internal nodes; and the result is a deterministic function of the
chromosome. -/
theorem c3_update_active (pr : P) (x : List Nat) (hP : Pvalid pr)
    (hv : is_valid pr x = true) :
    ∃ an ag, update_active pr x = some (an, ag)
      ∧ List.Sorted (· < ·) an
      ∧ an.Nodup
      ∧ (∀ a, a ∈ an ↔ Reach pr x a)
      ∧ (∀ an2 ag2, update_active pr x = some (an2, ag2) → an2 = an ∧ ag2 = ag) := by
  obtain ⟨an, ag, hua⟩ := update_active_total hP hv
  refine ⟨an, ag, hua, update_active_sorted hua,
    (update_active_sorted hua).imp (fun h => Nat.ne_of_lt h),
    update_active_mem_reach hua, ?_⟩
  intro an2 ag2 h2
  rw [hua] at h2
  injection h2 with h2
  obtain ⟨e1, e2⟩ := Prod.mk.injEq .. ▸ h2
  exact ⟨e1.symm, e2.symm⟩

/-- C3 witness: the characterization instantiated on the concrete
chromosome `xA`. -/
theorem c3_witness :
    Pvalid prA ∧ is_valid prA xA = true
      ∧ ∃ an ag, update_active prA xA = some (an, ag)
          ∧ List.Sorted (· < ·) an
          ∧ an.Nodup
          ∧ (∀ a, a ∈ an ↔ Reach prA xA a)
          ∧ (∀ an2 ag2, update_active prA xA = some (an2, ag2) → an2 = an ∧ ag2 = ag) :=
  ⟨by decide, by decide, c3_update_active prA xA (by decide) (by decide)⟩

/-- C7: after every active-set recomputation, active_genes has at least m
entries, its final m entries are exactly the m output-gene indices, and it
has exactly m entries precisely when every output target is an input node;
in the concrete case with chromosome [0,0,0,0], active_nodes = [0] and
active_genes = [3]. -/
theorem c7_active_genes :
    (∀ (pr : P) (x an ag : List Nat), update_active pr x = some (an, ag) →
      pr.m ≤ ag.length
      ∧ ag.drop (ag.length - pr.m)
          = (List.range pr.m).map (fun i => pr.r * pr.c * (pr.arity + 1) + i)
      ∧ (ag.length = pr.m ↔ ∀ o ∈ outTargets pr x, o < pr.n))
    ∧ update_active prA xB = some ([0], [3]) := by
  constructor
  · intro pr x an ag h
    obtain ⟨res, hres, han, hag⟩ := update_active_elim h
    subst hag
    refine ⟨by rw [activeGenesOf_length]; omega, activeGenesOf_drop pr an, ?_⟩
    rw [activeGenesOf_length]
    constructor
    · intro hlen o ho
      have hfil : (an.filter (fun a => pr.n ≤ a)).length = 0 := by
        by_contra hne
        have h1 : 1 ≤ (an.filter (fun a => pr.n ≤ a)).length := by omega
        have h2 : 1 * (pr.arity + 1)
            ≤ (an.filter (fun a => pr.n ≤ a)).length * (pr.arity + 1) :=
          Nat.mul_le_mul_right _ h1
        omega
      have hoan : o ∈ an := (update_active_closed h).2 o ho
      by_contra hno
      push_neg at hno
      have hmem : o ∈ an.filter (fun a => pr.n ≤ a) :=
        List.mem_filter.mpr ⟨hoan, by simpa using hno⟩
      rw [List.length_eq_zero.mp hfil] at hmem
      cases hmem
    · intro hin
      have hlt : ∀ a, Reach pr x a → a < pr.n := by
        intro a hr
        induction hr with
        | out b hb => exact hin b hb
        | step b p hrb hnb hpb ih => omega
      have hfil : an.filter (fun a => pr.n ≤ a) = [] := by
        rw [List.filter_eq_nil_iff]
        intro a ha
        have := hlt a ((update_active_mem_reach h a).mp ha)
        simp
        omega
      rw [hfil]
      simp
  · decide

/-- C7 witness: the invariants instantiated on the recomputation for the
concrete chromosome `xB`. -/
theorem c7_witness :
    update_active prA xB = some ([0], [3])
      ∧ (prA.m ≤ ([3] : List Nat).length
        ∧ ([3] : List Nat).drop (([3] : List Nat).length - prA.m)
            = (List.range prA.m).map (fun i => prA.r * prA.c * (prA.arity + 1) + i)
        ∧ (([3] : List Nat).length = prA.m ↔ ∀ o ∈ outTargets prA xB, o < prA.n)) :=
  ⟨by decide, c7_active_genes.1 prA xB [0] [3] (by decide)⟩

/-- C6: for an in-range gene index idx with lb[idx] < ub[idx], `mutate(idx)`
always leaves `get()[idx]` different from its previous value and within
`[lb[idx], ub[idx]]` with all other genes unchanged; with lb[idx] = ub[idx]
it leaves the whole state unchanged.  The quantified `v` is the value the
rejection sampler settles on, so the hypotheses on `v` are exactly its
postcondition. -/
theorem c6_mutate_single (s : Exprn) (idx : Nat) (hP : Pvalid s.pr)
    (hv : is_valid s.pr s.x = true) (hidx : idx < s.x.length) :
    ((lbL s.pr).getD idx 0 < (ubL s.pr).getD idx 0 →
      ∀ v, (lbL s.pr).getD idx 0 ≤ v → v ≤ (ubL s.pr).getD idx 0 →
        v ≠ s.x.getD idx 0 →
        isOk (mutate1 s idx v) = true
        ∧ (resX (mutate1 s idx v)).getD idx 0 = v
        ∧ (resX (mutate1 s idx v)).getD idx 0 ≠ s.x.getD idx 0
        ∧ (lbL s.pr).getD idx 0 ≤ (resX (mutate1 s idx v)).getD idx 0
        ∧ (resX (mutate1 s idx v)).getD idx 0 ≤ (ubL s.pr).getD idx 0
        ∧ ∀ j, j ≠ idx → (resX (mutate1 s idx v)).getD j 0 = s.x.getD j 0)
    ∧ (¬ (lbL s.pr).getD idx 0 < (ubL s.pr).getD idx 0 →
        ∀ v, mutate1 s idx v = .ok s) := by
  constructor
  · intro hlbub v hlb hub hne
    obtain ⟨an, ag, hok, -⟩ := mutate1_ok_set hP hv hidx hlb hub hlbub
    rw [hok]
    have hself : (s.x.set idx v).getD idx 0 = v := getD_set_self hidx
    refine ⟨rfl, hself, ?_, ?_, ?_, ?_⟩
    · rw [show resX (MResult.ok { s with x := s.x.set idx v, an := an, ag := ag })
        = s.x.set idx v from rfl, hself]
      exact hne
    · rw [show resX (MResult.ok { s with x := s.x.set idx v, an := an, ag := ag })
        = s.x.set idx v from rfl, hself]
      exact hlb
    · rw [show resX (MResult.ok { s with x := s.x.set idx v, an := an, ag := ag })
        = s.x.set idx v from rfl, hself]
      exact hub
    · intro j hj
      exact getD_set_ne (fun he => hj he.symm)
  · intro h v
    exact mutate1_frozen v hidx h

/-- C6 witness: mutating gene 1 of `sA` to the accepted draw 1, and the
degenerate gene 0 (lb = ub = 0). -/
theorem c6_witness :
    Pvalid prA ∧ is_valid prA xA = true ∧ 1 < xA.length
      ∧ (lbL prA).getD 1 0 < (ubL prA).getD 1 0
      ∧ (isOk (mutate1 sA 1 1) = true
        ∧ (resX (mutate1 sA 1 1)).getD 1 0 = 1
        ∧ (resX (mutate1 sA 1 1)).getD 1 0 ≠ sA.x.getD 1 0
        ∧ (lbL prA).getD 1 0 ≤ (resX (mutate1 sA 1 1)).getD 1 0
        ∧ (resX (mutate1 sA 1 1)).getD 1 0 ≤ (ubL prA).getD 1 0
        ∧ ∀ j, j ≠ 1 → (resX (mutate1 sA 1 1)).getD j 0 = sA.x.getD j 0)
      ∧ ¬ (lbL prA).getD 0 0 < (ubL prA).getD 0 0
      ∧ (∀ v, mutate1 sA 0 v = .ok sA) :=
  ⟨by decide, by decide, by decide, by decide,
    (c6_mutate_single sA 1 (by decide) (by decide) (by decide)).1 (by decide) 1
      (by decide) (by decide) (by decide),
    by decide,
    (c6_mutate_single sA 0 (by decide) (by decide) (by decide)).2 (by decide)⟩

/-- C1 counterexample: `mutate([1, 9])` on the consistent state `sA`
(chromosome length 4) throws because 9 is out of range, but the chromosome
after the failed call differs from its value before it — gene 1 was
already resampled before the bad index was reached, refuting the claimed
"no state change". -/
theorem c1_counterexample :
    isThrew (mutateMulti sA [1, 9] (fun _ => 1)) = true
      ∧ resAn (mutateMulti sA [1, 9] (fun _ => 1)) = sA.an
      ∧ resAg (mutateMulti sA [1, 9] (fun _ => 1)) = sA.ag
      ∧ resX (mutateMulti sA [1, 9] (fun _ => 1)) ≠ sA.x := by
  decide

/-- C1 (amended): `mutate(idxs)` with some index ≥ chromosome length is
rejected as an index-out-of-range failure; active_nodes and active_genes
keep their pre-call values, and every gene not listed strictly before the
first out-of-range index is unchanged (genes listed earlier may already
have been resampled when the failure is reported). -/
theorem c1_mutate_multi_error (s : Exprn) (idxs : List Nat) (draw : Nat → Nat)
    (hex : ∃ i ∈ idxs, s.x.length ≤ i) :
    ∃ x2, mutateMulti s idxs draw = .threw { s with x := x2 }
      ∧ ∀ j, j ∉ idxs.takeWhile (fun i => decide (i < s.x.length)) →
          x2.getD j 0 = s.x.getD j 0 := by
  obtain ⟨x2, haux, -, hframe⟩ := mutateMultiAux_throw idxs s.x false 0 hex
  refine ⟨x2, ?_, hframe⟩
  unfold mutateMulti
  rw [haux]

/-- C1 witness: the amended statement instantiated on the concrete failing
call `mutate([1, 9])`. -/
theorem c1_witness :
    (∃ i ∈ ([1, 9] : List Nat), sA.x.length ≤ i)
      ∧ ∃ x2, mutateMulti sA [1, 9] (fun _ => 1) = .threw { sA with x := x2 }
          ∧ ∀ j, j ∉ ([1, 9] : List Nat).takeWhile (fun i => decide (i < sA.x.length)) →
              x2.getD j 0 = sA.x.getD j 0 :=
  ⟨by decide, c1_mutate_multi_error sA [1, 9] (fun _ => 1) (by decide)⟩

/-- C2 counterexample: a `mutate_active(2)` run on the consistent state
`sC` whose first draw mutates the output gene.  The second draw is
resolved against the recomputed intermediate active_genes list and ends up
mutating gene 4, which is not in the active_genes list as it was when the
call started ([0, 1, 2, 6]) — refuting both "all N gene indices are drawn
from the initial active_genes list" and "a single recomputation at the
end with intermediate active-set states never used". -/
theorem c2_counterexample :
    isOk (mutate_activeN sC 2 pdC vdC) = true
      ∧ (resX (mutate_activeN sC 2 pdC vdC)).getD 4 0 ≠ sC.x.getD 4 0
      ∧ 4 ∉ sC.ag := by
  decide

/-- C2 (amended): `mutate_active(N)` performs its N single-gene mutations
sequentially; each iteration resolves its position draw against the
current active_genes list and the inner single-gene mutate recomputes the
active set before the next iteration (one recomputation per changed gene,
not one batched at the end), so every normally returning run ends in a
consistent state. -/
theorem c2_mutate_active (s : Exprn) (pd vd : Nat → Nat) (nGenes : Nat)
    (hc : Consistent s) :
    (∀ s2, mutate_activeN s nGenes pd vd = .ok s2 → Consistent s2)
    ∧ (1 ≤ nGenes → mutate_activeN s nGenes pd vd
        = match mutate1 s (s.ag.getD (pd 0) 0) (vd 0) with
          | .ok s2 => mutate_activeGo pd vd s2 1 (nGenes - 1)
          | r => r) := by
  constructor
  · intro s2 h
    exact mutate_activeGo_consistent pd vd nGenes s 0 s2 h hc
  · intro hN
    unfold mutate_activeN
    obtain ⟨nn, rfl⟩ : ∃ nn, nGenes = nn + 1 := ⟨nGenes - 1, by omega⟩
    rw [mutate_activeGo_succ]
    simp only [Nat.add_sub_cancel]

/-- C2 witness: the amended statement instantiated on the concrete run on
`sC`. -/
theorem c2_witness :
    Consistent sC
      ∧ ((∀ s2, mutate_activeN sC 2 pdC vdC = .ok s2 → Consistent s2)
        ∧ (1 ≤ 2 → mutate_activeN sC 2 pdC vdC
            = match mutate1 sC (sC.ag.getD (pdC 0) 0) (vdC 0) with
              | .ok s2 => mutate_activeGo pdC vdC s2 1 (2 - 1)
              | r => r)) :=
  ⟨by decide, c2_mutate_active sC pdC vdC 2 (by decide)⟩

/-- C8: whenever active_genes has exactly m entries (no active internal
node), `mutate_active_fgene()` and `mutate_active_cgene()` return normally
with no state change at all; whenever it has more than m entries, any
position draw `p ≤ size - 1 - m` lands on a gene of an active internal
node, is truncated to the start of that node's block, and the node's
function-selector gene (resp. its connection gene `k`) is the one handed
to the single-gene mutate. -/
theorem c8_fgene_cgene (s : Exprn) :
    (s.ag.length = s.pr.m →
      (∀ p v, mutate_active_fgene s p v = .ok s)
      ∧ (∀ p k v, mutate_active_cgene s p k v = .ok s))
    ∧ (Consistent s → s.pr.m < s.ag.length →
      ∀ p, p ≤ s.ag.length - 1 - s.pr.m →
        ∃ a ∈ s.an, s.pr.n ≤ a
          ∧ (∀ v, mutate_active_fgene s p v
              = mutate1 s ((a - s.pr.n) * (s.pr.arity + 1)) v)
          ∧ (∀ k v, mutate_active_cgene s p k v
              = mutate1 s ((a - s.pr.n) * (s.pr.arity + 1) + k) v)) := by
  constructor
  · intro hlen
    constructor
    · intro p v
      unfold mutate_active_fgene
      rw [if_neg (by omega)]
    · intro p k v
      unfold mutate_active_cgene
      rw [if_neg (by omega)]
  · intro hcons hlen p hp
    obtain ⟨res, hres, han, hag⟩ := update_active_elim hcons
    have hlenag : s.ag.length
        = (s.an.filter (fun a => s.pr.n ≤ a)).length * (s.pr.arity + 1) + s.pr.m := by
      rw [hag, activeGenesOf_length]
    have hpF : p < (s.an.filter (fun a => s.pr.n ≤ a)).length * (s.pr.arity + 1) := by
      omega
    have hgd := activeGenesOf_getD hpF
    rw [← hag] at hgd
    obtain ⟨a, ha, hna, j, hj, hgetD⟩ := hgd
    have hmod : ((a - s.pr.n) * (s.pr.arity + 1) + j) % (s.pr.arity + 1) = j := by
      have h1 : (a - s.pr.n) * (s.pr.arity + 1) + j
          = (s.pr.arity + 1) * (a - s.pr.n) + j := by ring
      rw [h1, Nat.mul_add_mod]
      exact Nat.mod_eq_of_lt (by omega)
    have hsub : s.ag.getD p 0 - s.ag.getD p 0 % (s.pr.arity + 1)
        = (a - s.pr.n) * (s.pr.arity + 1) := by
      rw [hgetD, hmod]
      omega
    refine ⟨a, ha, hna, ?_, ?_⟩
    · intro v
      unfold mutate_active_fgene
      rw [if_pos hlen, hsub]
    · intro k v
      unfold mutate_active_cgene
      rw [if_pos hlen, hsub]

/-- C8 witness: the no-op case on `sB` (active_genes = [3], one output) and
the active case on `sA` (active_genes = [0,1,2,3], draw position 0). -/
theorem c8_witness :
    sB.ag.length = sB.pr.m
      ∧ ((∀ p v, mutate_active_fgene sB p v = .ok sB)
        ∧ (∀ p k v, mutate_active_cgene sB p k v = .ok sB))
      ∧ Consistent sA ∧ sA.pr.m < sA.ag.length ∧ 0 ≤ sA.ag.length - 1 - sA.pr.m
      ∧ ∃ a ∈ sA.an, sA.pr.n ≤ a
          ∧ (∀ v, mutate_active_fgene sA 0 v
              = mutate1 sA ((a - sA.pr.n) * (sA.pr.arity + 1)) v)
          ∧ (∀ k v, mutate_active_cgene sA 0 k v
              = mutate1 sA ((a - sA.pr.n) * (sA.pr.arity + 1) + k) v) :=
  ⟨by decide, (c8_fgene_cgene sB).1 (by decide), by decide, by decide, by decide,
    (c8_fgene_cgene sA).2 (by decide) (by decide) 0 (by decide)⟩

/-- C4: evaluation with an input sequence whose length differs from n fails
with no output; with length exactly n it returns exactly m values, each
read through the corresponding output gene from the node map computed over
the active nodes; the concrete add scenario evaluates [2, 3] to [5] with
active_nodes [0, 1, 2] and active_genes [0, 1, 2, 3]. -/
theorem c4_eval :
    (∀ (T : Type) (dflt : T) (ks : List (List T → T)) (pr : P) (x an : List Nat)
        (input : List T),
      (input.length ≠ pr.n → evalExpr pr dflt ks x an input = none)
      ∧ (input.length = pr.n →
          evalExpr pr dflt ks x an input
            = some ((List.range pr.m).map (fun i =>
                ((evalNodes pr dflt ks x input an []).lookup
                  (x.getD (pr.r * pr.c * (pr.arity + 1) + i) 0)).getD dflt))
          ∧ ∃ out, evalExpr pr dflt ks x an input = some out ∧ out.length = pr.m))
    ∧ update_active prA xA = some ([0, 1, 2], [0, 1, 2, 3])
    ∧ evalExpr prA (0 : Int) [addK] xA [0, 1, 2] [2, 3] = some [5]
    ∧ evalExpr prA (0 : Int) [addK] xA [0, 1, 2] [2] = none := by
  refine ⟨?_, by decide, by decide, by decide⟩
  intro T dflt ks pr x an input
  constructor
  · intro hne
    unfold evalExpr
    rw [if_pos hne]
  · intro heq
    have h1 : evalExpr pr dflt ks x an input
        = some ((List.range pr.m).map (fun i =>
            ((evalNodes pr dflt ks x input an []).lookup
              (x.getD (pr.r * pr.c * (pr.arity + 1) + i) 0)).getD dflt)) := by
      unfold evalExpr
      rw [if_neg (by omega)]
    exact ⟨h1, _, h1, by rw [List.length_map, List.length_range]⟩

/-- C4 witness: the generic contract instantiated at the concrete add
scenario. -/
theorem c4_witness :
    ([2, 3] : List Int).length = prA.n
      ∧ (evalExpr prA (0 : Int) [addK] xA [0, 1, 2] [2, 3]
          = some ((List.range prA.m).map (fun i =>
              ((evalNodes prA (0 : Int) [addK] xA [2, 3] [0, 1, 2] []).lookup
                (xA.getD (prA.r * prA.c * (prA.arity + 1) + i) 0)).getD 0))
        ∧ ∃ out, evalExpr prA (0 : Int) [addK] xA [0, 1, 2] [2, 3] = some out
            ∧ out.length = prA.m) :=
  ⟨by decide, (c4_eval.1 Int 0 [addK] prA xA [0, 1, 2] [2, 3]).2 (by decide)⟩

/-- C10: evaluating a bounds-satisfying chromosome over the recomputed
active nodes in ascending order, every connection-gene target of an active
internal node is itself active with a strictly smaller id, occurs among
the nodes already processed, and the evaluator's node-map lookup for it
never misses. -/
theorem c10_eval_safety (pr : P) (x an ag : List Nat) (hP : Pvalid pr)
    (hv : is_valid pr x = true) (h : update_active pr x = some (an, ag)) :
    ∀ k (hk : k < an.length), pr.n ≤ an[k] →
      ∀ p ∈ preds pr x an[k],
        p ∈ an ∧ p < an[k] ∧ p ∈ an.take k
        ∧ ∀ (T : Type) (dflt : T) (ks : List (List T → T)) (input : List T),
            ((evalNodes pr dflt ks x input (an.take k) []).lookup p).isSome = true := by
  intro k hk hn p hp
  have hmem : an[k] ∈ an := List.getElem_mem hk
  have hpan : p ∈ an := (update_active_closed h).1 _ hmem hn p hp
  have hklt : an[k] < pr.n + pr.r * pr.c :=
    reach_lt hP hv _ ((update_active_mem_reach h _).mp hmem)
  have hplt : p < an[k] := pred_lt hP hv hn hklt hp
  have htake : p ∈ an.take k :=
    mem_take_of_lt_sorted (update_active_sorted h) hk hpan hplt
  refine ⟨hpan, hplt, htake, ?_⟩
  intro T dflt ks input
  rw [lookup_isSome_iff, evalNodes_keys]
  simp only [List.map_nil, List.append_nil, List.mem_reverse]
  exact htake

/-- C10 witness: the safety property instantiated on the concrete
chromosome `xA` and its active nodes. -/
theorem c10_witness :
    Pvalid prA ∧ is_valid prA xA = true
      ∧ update_active prA xA = some ([0, 1, 2], [0, 1, 2, 3])
      ∧ ∀ k (hk : k < ([0, 1, 2] : List Nat).length),
          prA.n ≤ ([0, 1, 2] : List Nat)[k] →
          ∀ p ∈ preds prA xA (([0, 1, 2] : List Nat)[k]),
            p ∈ ([0, 1, 2] : List Nat) ∧ p < ([0, 1, 2] : List Nat)[k]
            ∧ p ∈ ([0, 1, 2] : List Nat).take k
            ∧ ∀ (T : Type) (dflt : T) (ks : List (List T → T)) (input : List T),
                ((evalNodes prA dflt ks xA input (([0, 1, 2] : List Nat).take k)
                  []).lookup p).isSome = true :=
  ⟨by decide, by decide, by decide,
    c10_eval_safety prA xA [0, 1, 2] [0, 1, 2, 3] (by decide) (by decide) (by decide)⟩

end DCGP
